import Mathlib

/-!
RTOps threat-intelligence ingestion pipeline — verification development.

A shallow embedding of the MITRE ATT&CK ingestion/normalization pipeline of
`rto_platform.py` (the `ttps` catalog table, `seed_minimal_ttps`,
`_try_import_from_stix_or_layer`, `_try_enrich_from_xlsx`, `admin_load_mitre`),
together with theorems settling the specification claims about it.

The catalog (SQLite table `ttps` with `UNIQUE(technique_id, tactic) ON CONFLICT
IGNORE`) is modelled as a `List TTPRow`; an `INSERT OR IGNORE` is an
insert-if-key-absent appending at the end; the enrichment `UPDATE ... CASE`
statement is a map over the rows with matching key.  `NULL` column values are
modelled as `none`.
-/

/-- The canonical ATT&CK Enterprise tactic order (`TACTIC_ORDER` in the source).
`TACTIC_TITLES` has exactly these strings as keys, so membership in
`TACTIC_TITLES` (the check the XLSX path performs) is membership here. -/
def TACTIC_ORDER : List String :=
  ["reconnaissance", "resource-development", "initial-access", "execution",
   "persistence", "privilege-escalation", "defense-evasion", "credential-access",
   "discovery", "lateral-movement", "collection", "command-and-control",
   "exfiltration", "impact"]

/-- Registry membership (`tac in TACTIC_TITLES` of the source): membership in the 14-tactic registry. -/
def isRegistryTactic (t : String) : Bool := TACTIC_ORDER.contains t

/-! ## Python string primitives

The source manipulates Python strings with `.strip()`, `.lower()`,
`.startswith(...)`, `.replace(...)` and `.split(",")`.  These are modelled by
structural recursion over the character list of the string (for the ASCII data
this pipeline handles, Python and these models agree), so that every
definition evaluates inside the kernel. -/

/-- Does `pat` occur as a leading block of the second list? -/
def charsLead : List Char → List Char → Bool
  | [], _ => true
  | _ :: _, [] => false
  | a :: as, b :: bs => a == b && charsLead as bs

/-- If `pat` is a leading block, return the remainder after it. -/
def matchLead : List Char → List Char → Option (List Char)
  | [], s => some s
  | _ :: _, [] => none
  | p :: ps, c :: cs => if p = c then matchLead ps cs else none

/-- One fuel-measured pass of `str.replace`: each step either rewrites one
occurrence of the (non-empty) pattern or copies one character, so `fuel =
length` always suffices. -/
def charsReplaceFuel (pat rep : List Char) : Nat → List Char → List Char
  | 0, s => s
  | _ + 1, [] => []
  | fuel + 1, c :: rest =>
    match matchLead pat (c :: rest) with
    | some rem => rep ++ charsReplaceFuel pat rep fuel rem
    | none => c :: charsReplaceFuel pat rep fuel rest

/-- Python `s.replace(pat, rep)` for a non-empty pattern. -/
def strReplace (s pat rep : String) : String :=
  ⟨charsReplaceFuel pat.data rep.data s.data.length s.data⟩

/-- Python `s.lower()` (ASCII). -/
def strLower (s : String) : String := ⟨s.data.map Char.toLower⟩

/-- Strip leading and trailing whitespace from a character list. -/
def charsTrim (l : List Char) : List Char :=
  ((l.dropWhile Char.isWhitespace).reverse.dropWhile Char.isWhitespace).reverse

/-- Python `s.strip()`. -/
def strTrim (s : String) : String := ⟨charsTrim s.data⟩

/-- Python `s.startswith(p)`. -/
def strStartsWith (s p : String) : Bool := charsLead p.data s.data

/-- Python `s.split(",")`: split at every comma; the empty string yields
`[""]`. -/
def splitOnComma : List Char → List (List Char)
  | [] => [[]]
  | c :: rest =>
    let r := splitOnComma rest
    if c = ',' then [] :: r
    else
      match r with
      | [] => [[c]]
      | h :: t => (c :: h) :: t

/-- Python `s.split(",")` on strings. -/
def strSplitComma (s : String) : List String :=
  (splitOnComma s.data).map (fun l => ⟨l⟩)

/-- One row of the `ttps` table: `technique_id, tactic, name, description, refs,
created_at`.  `name`/`description` are `Option` because the column can be SQL
`NULL` (the STIX path inserts `obj.get("name")`, which may be absent). -/
structure TTPRow where
  technique_id : String
  tactic : String
  name : Option String
  description : Option String
  refs : String
  created_at : String
deriving DecidableEq, Repr

/-- The unique key of the `ttps` table: `(technique_id, tactic)`. -/
def rowKey (r : TTPRow) : String × String := (r.technique_id, r.tactic)

/-- Does the catalog already hold a row with this `(technique_id, tactic)` key? -/
def keyMem (cat : List TTPRow) (k : String × String) : Bool :=
  cat.any (fun r => rowKey r == k)

/-- The statement `INSERT OR IGNORE INTO ttps`: insert the row unless its
`(technique_id, tactic)` key is already present (the table's
`UNIQUE(technique_id, tactic) ON CONFLICT IGNORE` constraint). -/
def insertOrIgnore (cat : List TTPRow) (row : TTPRow) : List TTPRow :=
  if keyMem cat (rowKey row) then cat else cat ++ [row]

/-- The per-row effect of the enrichment `UPDATE`'s `CASE` expressions
(`_try_enrich_from_xlsx`, lines 1067-1071): `name` is replaced when it is
`NULL`, empty, or equal to `technique_id`; `description` is replaced when it is
`NULL` or empty. -/
def enrichRow (nm ds : String) (r : TTPRow) : TTPRow :=
  { r with
    name := match r.name with
      | none => some nm
      | some n => if n = "" ∨ n = r.technique_id then some nm else some n
    description := match r.description with
      | none => some ds
      | some d => if d = "" then some ds else some d }

/-- The enrichment `UPDATE ... WHERE technique_id=? AND tactic=?`: apply
`enrichRow` to every row whose key matches. -/
def enrichUpdate (cat : List TTPRow) (tid tac nm ds : String) : List TTPRow :=
  cat.map (fun r => if r.technique_id = tid ∧ r.tactic = tac then enrichRow nm ds r else r)

/-! ## STIX bundle parser (`_try_import_from_stix_or_layer`, bundle branch) -/

/-- An entry of a STIX object's `external_references` list.  The source reads
both fields with a default of `""` (`ref.get("source_name","")`,
`str(ref.get("external_id",""))`), so they are plain strings here. -/
structure ExternalRef where
  source_name : String
  external_id : String
deriving DecidableEq, Repr

/-- An entry of a STIX object's `kill_chain_phases` list.  `phase_name` may be
absent (`p.get("phase_name")`), `kill_chain_name` is only compared against
`"mitre-attack"` so an absent value is modelled as `""`. -/
structure KillChainPhase where
  kill_chain_name : String
  phase_name : Option String
deriving DecidableEq, Repr

/-- A top-level STIX bundle object, restricted to the fields the importer
reads: `type`, `name` (may be absent), `description` (may be absent),
`external_references`, `kill_chain_phases`. -/
structure StixObject where
  objType : String
  name : Option String
  description : Option String
  external_references : List ExternalRef
  kill_chain_phases : List KillChainPhase
deriving DecidableEq, Repr

/-- Scan of the `external_references` list: the first entry whose
`source_name.lower()` is `"mitre-attack"` and whose `external_id` starts with
`"T"` supplies the technique id. -/
def stixTechId (refs : List ExternalRef) : Option String :=
  match refs.find? (fun ref =>
      strLower ref.source_name == "mitre-attack" && strStartsWith ref.external_id "T") with
  | some ref => some ref.external_id
  | none => none

/-- The phases the importer keeps: those with `kill_chain_name == "mitre-attack"`. -/
def recognizedPhases (obj : StixObject) : List KillChainPhase :=
  obj.kill_chain_phases.filter (fun p => p.kill_chain_name == "mitre-attack")

/-- The rows one STIX object contributes: nothing unless it is an
`attack-pattern` with a recovered technique id; otherwise one row per
`mitre-attack` kill-chain phase, each with the lower-cased phase name as
tactic, sharing `name` (verbatim, possibly `NULL`) and stripped `description`. -/
def stixObjectRows (now : String) (obj : StixObject) : List TTPRow :=
  if obj.objType = "attack-pattern" then
    match stixTechId obj.external_references with
    | none => []
    | some tid =>
        (recognizedPhases obj).map (fun p =>
          ⟨tid, strLower (p.phase_name.getD ""), obj.name,
           some (strTrim (obj.description.getD "")), "", now⟩)
  else []

/-- The STIX-bundle branch of `_try_import_from_stix_or_layer`: insert-or-ignore
each contributed row; the returned count is incremented once per contributed
row (per `(object, tactic)` pair), whether or not the insert was ignored. -/
def tryImportStix (now : String) (cat : List TTPRow) (objs : List StixObject) :
    List TTPRow × Nat :=
  let rows := (objs.map (stixObjectRows now)).flatten
  (rows.foldl insertOrIgnore cat, rows.length)

/-! ## Navigator flat-list parser (`_try_import_from_stix_or_layer`, layer branch) -/

/-- One entry of a Navigator layer's `techniques` list. -/
structure NavEntry where
  techniqueID : Option String
  tactic : Option String
deriving DecidableEq, Repr

/-- The row one Navigator entry contributes: skipped when the id or the
lower-cased tactic is missing/empty (`if not tech_id or not tac`), otherwise a
placeholder row whose `name` is the technique id itself and whose description
is empty. -/
def navEntryRow (now : String) (t : NavEntry) : Option TTPRow :=
  let tid := t.techniqueID.getD ""
  let tac := strLower (t.tactic.getD "")
  if tid = "" ∨ tac = "" then none
  else some ⟨tid, tac, some tid, some "", "", now⟩

/-- The Navigator branch of `_try_import_from_stix_or_layer`: insert-or-ignore
each accepted entry, counting once per accepted entry. -/
def tryImportNav (now : String) (cat : List TTPRow) (ts : List NavEntry) :
    List TTPRow × Nat :=
  let rows := ts.filterMap (navEntryRow now)
  (rows.foldl insertOrIgnore cat, rows.length)

/-! ## XLSX spreadsheet parser (`_try_enrich_from_xlsx`) -/

/-- Does `needle` occur contiguously anywhere in the character list? -/
def charsWithin (needle : List Char) : List Char → Bool
  | [] => needle.isEmpty
  | c :: rest => charsLead needle (c :: rest) || charsWithin needle rest

/-- Python's `key in k` substring test. -/
def strWithin (hay key : String) : Bool := charsWithin key.data hay.data

/-- Python-dict insert: an existing key keeps its position and gets the new
value, a new key is appended. -/
def upsertHeader (m : List (String × Nat)) (k : String) (c : Nat) :
    List (String × Nat) :=
  if m.any (fun p => p.1 == k) then
    m.map (fun p => if p.1 == k then (p.1, c) else p)
  else m ++ [(k, c)]

/-- The header map of a sheet: walk the first row's cells in column order,
skip empty cells, key each cell's stripped lower-cased text to its column. -/
def buildHeader (cells : List (Option String)) : List (String × Nat) :=
  (cells.enum).foldl (fun m p =>
    match p.2 with
    | none => m
    | some v => upsertHeader m (strLower (strTrim v)) p.1) []

/-- The helper `find_col(*keys)`: the first header entry (in insertion order) that
contains any of the given keys as a substring supplies the column. -/
def findCol (header : List (String × Nat)) (keys : List String) : Option Nat :=
  match header.find? (fun p => keys.any (fun key => strWithin p.1 key)) with
  | some p => some p.2
  | none => none

/-- Synonyms for the identifier column. -/
def idKeys : List String := ["technique id", "external id", "id", "external_id"]
/-- Synonyms for the name column. -/
def nameKeys : List String := ["technique name", "technique", "name"]
/-- Synonyms for the description column. -/
def descKeys : List String := ["description", "technique description"]
/-- Synonyms for the tactics column. -/
def tacKeys : List String := ["tactics", "tactic", "domain tactics"]

/-- The split `str(tacs_raw).replace("/", ",").replace(" & ", ",").split(",")`. -/
def splitTactics (raw : String) : List String :=
  strSplitComma (strReplace (strReplace raw "/" ",") " & " ",")

/-- The normalization `t.strip().lower().replace(" ", "-")`: normalize one tactic token. -/
def normTactic (t : String) : String := strReplace (strLower (strTrim t)) " " "-"

/-- The registry tactics a tactics cell yields: split, normalize, and drop
tokens not in the registry. -/
def acceptedTactics (raw : String) : List String :=
  ((splitTactics raw).map normTactic).filter isRegistryTactic

/-- One accepted `(technique id, tactic, name, description)` quadruple of a
spreadsheet data row; the loop body runs once per such quadruple. -/
structure Emission where
  tid : String
  tac : String
  nm : String
  ds : String
deriving DecidableEq, Repr

/-- A worksheet: the first row (header cells) and the data rows; a cell is
`none` when empty.  Reading past the end of a row is an empty cell. -/
structure Sheet where
  header : List (Option String)
  rows : List (List (Option String))
deriving DecidableEq, Repr

/-- What one data row emits, given the located columns: nothing unless the
stripped id cell starts with `"T"` and the stripped tactics cell is non-empty;
otherwise one emission per accepted tactic token, with stripped name and
description cells (description defaults to `""` when its column is absent). -/
def rowEmissions (ci cn : Nat) (cd : Option Nat) (ct : Nat)
    (row : List (Option String)) : List Emission :=
  let tid := strTrim ((row.getD ci none).getD "")
  if strStartsWith tid "T" = false then []
  else
    let nm := strTrim ((row.getD cn none).getD "")
    let ds := match cd with
      | some c => strTrim ((row.getD c none).getD "")
      | none => ""
    let raw := strTrim ((row.getD ct none).getD "")
    if raw = "" then []
    else (acceptedTactics raw).map (fun tac => ⟨tid, tac, nm, ds⟩)

/-- What one sheet emits: nothing when the fuzzy header match fails to locate
an id, name, or tactics column (`continue  # not a techniques-like sheet`),
otherwise the concatenated row emissions in top-to-bottom order. -/
def sheetEmissions (s : Sheet) : List Emission :=
  let header := buildHeader s.header
  let ci := findCol header idKeys
  let cn := findCol header nameKeys
  let cd := findCol header descKeys
  let ct := findCol header tacKeys
  match ci, cn, ct with
  | some ci, some cn, some ct => (s.rows.map (rowEmissions ci cn cd ct)).flatten
  | _, _, _ => []

/-- All emissions of a workbook, sheet by sheet. -/
def xlsxEmissions (sheets : List Sheet) : List Emission :=
  (sheets.map sheetEmissions).flatten

/-- The row an emission's `INSERT OR IGNORE` carries. -/
def insRow (now : String) (e : Emission) : TTPRow :=
  ⟨e.tid, e.tac, some e.nm, some e.ds, "", now⟩

/-- The per-row effect of one emission's `UPDATE` on one catalog row
(enrich when the key matches, otherwise leave alone). -/
def stepRow (r : TTPRow) (e : Emission) : TTPRow :=
  if r.technique_id = e.tid ∧ r.tactic = e.tac then enrichRow e.nm e.ds r else r

/-- The loop body of `_try_enrich_from_xlsx` for one accepted tactic token:
`INSERT OR IGNORE` followed by the enrichment `UPDATE`. -/
def applyEmission (now : String) (cat : List TTPRow) (e : Emission) : List TTPRow :=
  enrichUpdate (insertOrIgnore cat (insRow now e)) e.tid e.tac e.nm e.ds

/-- The function `_try_enrich_from_xlsx` on an opened workbook: fold the loop body over all
emissions; `updated` is incremented once per emission. -/
def tryEnrichXlsx (now : String) (cat : List TTPRow) (sheets : List Sheet) :
    List TTPRow × Nat :=
  ((xlsxEmissions sheets).foldl (applyEmission now) cat, (xlsxEmissions sheets).length)

/-! ## Seeding (`DEFAULT_TTPS`, `seed_minimal_ttps`) -/

/-- The three hard-coded fallback records. -/
def DEFAULT_TTPS (now : String) : List TTPRow :=
  [⟨"T1059", "execution", some "Command and Scripting Interpreter",
    some "Execute commands and scripts via shells/interpreters.",
    "https://attack.mitre.org/techniques/T1059/", now⟩,
   ⟨"T1021", "lateral-movement", some "Remote Services",
    some "RDP/SMB/SSH for lateral movement.",
    "https://attack.mitre.org/techniques/T1021/", now⟩,
   ⟨"T1003", "credential-access", some "OS Credential Dumping",
    some "Dump creds from OS components.",
    "https://attack.mitre.org/techniques/T1003/", now⟩]

/-- The function `seed_minimal_ttps`: when the catalog is empty, insert the three defaults
(the table's conflict clause makes each insert an insert-or-ignore). -/
def seed_minimal_ttps (now : String) (cat : List TTPRow) : List TTPRow :=
  if cat.length = 0 then (DEFAULT_TTPS now).foldl insertOrIgnore cat else cat

/-! ## Orchestrator (`admin_load_mitre`) and request-level state -/

/-- The persistent state the pipeline touches: the `ttps` catalog and the
`mitre_loaded` settings flag. -/
structure RunState where
  catalog : List TTPRow
  mitre_loaded : Bool
deriving DecidableEq, Repr

/-- One candidate JSON source file as the orchestrator sees it: absent on disk,
raising during load/parse, parsed but neither a bundle nor a layer, or one of
the two recognized shapes. -/
inductive JsonSource
  | missing
  | malformed
  | unrecognized
  | stix (objs : List StixObject)
  | nav (entries : List NavEntry)
deriving DecidableEq, Repr

/-- One candidate XLSX source file: absent, raising during load, or an opened
workbook. -/
inductive XlsxSource
  | missing
  | malformed
  | workbook (sheets : List Sheet)
deriving DecidableEq, Repr

/-- The orchestrator's handling of one JSON candidate: a missing path is
skipped, an exception is swallowed (`except Exception: pass`), an unrecognized
shape returns 0; otherwise the matching importer runs and its count is added. -/
def processJson (now : String) (st : List TTPRow × Nat) (s : JsonSource) :
    List TTPRow × Nat :=
  match s with
  | .missing => st
  | .malformed => st
  | .unrecognized => st
  | .stix objs =>
      let r := tryImportStix now st.1 objs
      (r.1, st.2 + r.2)
  | .nav es =>
      let r := tryImportNav now st.1 es
      (r.1, st.2 + r.2)

/-- The orchestrator's handling of one XLSX candidate. -/
def processXlsx (now : String) (st : List TTPRow × Nat) (s : XlsxSource) :
    List TTPRow × Nat :=
  match s with
  | .missing => st
  | .malformed => st
  | .workbook sheets =>
      let r := tryEnrichXlsx now st.1 sheets
      (r.1, st.2 + r.2)

/-- The function `admin_load_mitre`: JSON candidates first, then XLSX candidates; the
`mitre_loaded` flag is set exactly when the accumulated total is positive and
is never written otherwise.  Returns the new state and the total. -/
def admin_load_mitre (now : String) (st : RunState) (jsons : List JsonSource)
    (xs : List XlsxSource) : RunState × Nat :=
  let a := jsons.foldl (processJson now) (st.catalog, 0)
  let b := xs.foldl (processXlsx now) a
  ({ catalog := b.1, mitre_loaded := if b.2 > 0 then true else st.mitre_loaded }, b.2)

/-- The `maybe_seed` before-request hook: seed the catalog when empty; the
`mitre_loaded` flag is untouched. -/
def before_request_seed (now : String) (st : RunState) : RunState :=
  { st with catalog := seed_minimal_ttps now st.catalog }

/-- One ingestion operation, for stating catalog invariants over arbitrary
operation sequences. -/
inductive IngestOp
  | seed
  | stix (objs : List StixObject)
  | nav (entries : List NavEntry)
  | xlsx (sheets : List Sheet)
deriving Repr

/-- Apply one ingestion operation to the catalog. -/
def applyOp (now : String) (cat : List TTPRow) : IngestOp → List TTPRow
  | .seed => seed_minimal_ttps now cat
  | .stix objs => (tryImportStix now cat objs).1
  | .nav es => (tryImportNav now cat es).1
  | .xlsx sheets => (tryEnrichXlsx now cat sheets).1

/-- The technique-id pattern of the specification, `T\d{4}(\.\d{3})?`. -/
def validTechniqueId (s : String) : Bool :=
  match s.data with
  | 'T' :: t =>
    match t with
    | [a, b, c, d] => a.isDigit && b.isDigit && c.isDigit && d.isDigit
    | [a, b, c, d, dot, e, f, g2] =>
        a.isDigit && b.isDigit && c.isDigit && d.isDigit && dot == '.' &&
        e.isDigit && f.isDigit && g2.isDigit
    | _ => false
  | _ => false

/-- No two catalog rows share a `(technique_id, tactic)` key. -/
def keysNodup (cat : List TTPRow) : Prop := (cat.map rowKey).Nodup

/-! ## Helper lemmas: keys, insert-or-ignore, enrichment update -/

theorem keyMem_iff {cat : List TTPRow} {k : String × String} :
    keyMem cat k = true ↔ ∃ r ∈ cat, rowKey r = k := by
  simp [keyMem, List.any_eq_true, beq_iff_eq]

theorem insertOrIgnore_of_keyMem {cat : List TTPRow} {row : TTPRow}
    (h : keyMem cat (rowKey row) = true) : insertOrIgnore cat row = cat := by
  simp [insertOrIgnore, h]

theorem keyMem_insertOrIgnore_self (cat : List TTPRow) (row : TTPRow) :
    keyMem (insertOrIgnore cat row) (rowKey row) = true := by
  unfold insertOrIgnore
  by_cases h : keyMem cat (rowKey row) = true
  · simp [h]
  · simp only [h, Bool.false_eq_true, if_false]
    rw [keyMem_iff]
    exact ⟨row, by simp, rfl⟩

theorem keyMem_insertOrIgnore_mono {cat : List TTPRow} {k : String × String}
    (row : TTPRow) (h : keyMem cat k = true) :
    keyMem (insertOrIgnore cat row) k = true := by
  unfold insertOrIgnore
  by_cases hm : keyMem cat (rowKey row) = true
  · simpa [hm]
  · simp only [hm, Bool.false_eq_true, if_false]
    rw [keyMem_iff] at h ⊢
    obtain ⟨r, hr, hk⟩ := h
    exact ⟨r, by simp [hr], hk⟩

theorem enrichRow_technique_id (nm ds : String) (r : TTPRow) :
    (enrichRow nm ds r).technique_id = r.technique_id := rfl

theorem enrichRow_tactic (nm ds : String) (r : TTPRow) :
    (enrichRow nm ds r).tactic = r.tactic := rfl

theorem enrichRow_refs (nm ds : String) (r : TTPRow) :
    (enrichRow nm ds r).refs = r.refs := rfl

theorem enrichRow_created_at (nm ds : String) (r : TTPRow) :
    (enrichRow nm ds r).created_at = r.created_at := rfl

theorem rowKey_enrichRow (nm ds : String) (r : TTPRow) :
    rowKey (enrichRow nm ds r) = rowKey r := rfl

theorem stepRow_rowKey (r : TTPRow) (e : Emission) :
    rowKey (stepRow r e) = rowKey r := by
  unfold stepRow
  by_cases h : r.technique_id = e.tid ∧ r.tactic = e.tac <;> simp [h, rowKey_enrichRow]

theorem stepRow_technique_id (r : TTPRow) (e : Emission) :
    (stepRow r e).technique_id = r.technique_id :=
  congrArg Prod.fst (stepRow_rowKey r e)

theorem stepRow_tactic (r : TTPRow) (e : Emission) :
    (stepRow r e).tactic = r.tactic :=
  congrArg Prod.snd (stepRow_rowKey r e)

theorem stepRow_refs (r : TTPRow) (e : Emission) :
    (stepRow r e).refs = r.refs := by
  unfold stepRow
  by_cases h : r.technique_id = e.tid ∧ r.tactic = e.tac <;> simp [h, enrichRow_refs]

theorem stepRow_created_at (r : TTPRow) (e : Emission) :
    (stepRow r e).created_at = r.created_at := by
  unfold stepRow
  by_cases h : r.technique_id = e.tid ∧ r.tactic = e.tac <;> simp [h, enrichRow_created_at]

theorem enrichUpdate_eq_map (cat : List TTPRow) (e : Emission) :
    enrichUpdate cat e.tid e.tac e.nm e.ds = cat.map (fun r => stepRow r e) := rfl

theorem applyEmission_eq (now : String) (cat : List TTPRow) (e : Emission) :
    applyEmission now cat e =
      (insertOrIgnore cat (insRow now e)).map (fun r => stepRow r e) := rfl

theorem map_rowKey_map_stepRow (cat : List TTPRow) (e : Emission) :
    (cat.map (fun r => stepRow r e)).map rowKey = cat.map rowKey := by
  rw [List.map_map]
  exact List.map_congr_left (fun r _ => stepRow_rowKey r e)

theorem keyMem_map_stepRow (e : Emission) (k : String × String) :
    ∀ cat : List TTPRow, keyMem (cat.map (fun r => stepRow r e)) k = keyMem cat k := by
  intro cat
  induction cat with
  | nil => rfl
  | cons r cat ih =>
      simp only [List.map_cons, keyMem, List.any_cons] at ih ⊢
      rw [stepRow_rowKey, ih]

theorem rowKey_insRow (now : String) (e : Emission) :
    rowKey (insRow now e) = (e.tid, e.tac) := rfl

theorem keyMem_applyEmission_self (now : String) (cat : List TTPRow) (e : Emission) :
    keyMem (applyEmission now cat e) (e.tid, e.tac) = true := by
  rw [applyEmission_eq, keyMem_map_stepRow]
  have := keyMem_insertOrIgnore_self cat (insRow now e)
  rwa [rowKey_insRow] at this

theorem keyMem_applyEmission_mono {cat : List TTPRow} {k : String × String}
    (now : String) (e : Emission) (h : keyMem cat k = true) :
    keyMem (applyEmission now cat e) k = true := by
  rw [applyEmission_eq, keyMem_map_stepRow]
  exact keyMem_insertOrIgnore_mono _ h

theorem keyMem_foldl_applyEmission_mono {cat : List TTPRow} {k : String × String}
    (now : String) (E : List Emission) (h : keyMem cat k = true) :
    keyMem (E.foldl (applyEmission now) cat) k = true := by
  induction E generalizing cat with
  | nil => exact h
  | cons e E ih => exact ih (keyMem_applyEmission_mono now e h)

theorem keys_after_pass (now : String) (E : List Emission) (cat : List TTPRow) :
    ∀ e ∈ E, keyMem (E.foldl (applyEmission now) cat) (e.tid, e.tac) = true := by
  induction E generalizing cat with
  | nil => intro e he; cases he
  | cons e' E ih =>
      intro e he
      rcases List.mem_cons.mp he with h | h
      · subst h
        exact keyMem_foldl_applyEmission_mono now E (keyMem_applyEmission_self now cat e)
      · exact ih (applyEmission now cat e') e h

/-! ## Per-field dynamics of the enrichment update -/

/-- The `name` `CASE` expression of the enrichment `UPDATE`, as a function of
the stored value. -/
def nameStep (tid nm : String) : Option String → Option String
  | none => some nm
  | some n => if n = "" ∨ n = tid then some nm else some n

/-- The `description` `CASE` expression of the enrichment `UPDATE`, as a
function of the stored value. -/
def descStep (ds : String) : Option String → Option String
  | none => some ds
  | some d => if d = "" then some ds else some d

theorem enrichRow_name (nm ds : String) (r : TTPRow) :
    (enrichRow nm ds r).name = nameStep r.technique_id nm r.name := by
  obtain ⟨tid, tac, n, d, rf, ca⟩ := r
  cases n <;> rfl

theorem enrichRow_description (nm ds : String) (r : TTPRow) :
    (enrichRow nm ds r).description = descStep ds r.description := by
  obtain ⟨tid, tac, n, d, rf, ca⟩ := r
  cases d <;> rfl

/-- A stored name the update never touches: non-`NULL`, non-empty, and
different from the technique id. -/
def genuineName (tid : String) : Option String → Bool
  | none => false
  | some n => !(n == "" || n == tid)

/-- A stored description the update never touches: non-`NULL` and non-empty. -/
def filledDesc : Option String → Bool
  | none => false
  | some d => !(d == "")

theorem nameStep_of_genuine {tid : String} {n : Option String}
    (h : genuineName tid n = true) (nm : String) : nameStep tid nm n = n := by
  cases n with
  | none => simp [genuineName] at h
  | some n =>
      simp only [genuineName] at h
      simp at h
      simp only [nameStep]
      rw [if_neg (by tauto)]

theorem nameStep_of_not_genuine {tid : String} {n : Option String}
    (h : genuineName tid n = false) (nm : String) : nameStep tid nm n = some nm := by
  cases n with
  | none => rfl
  | some n =>
      simp only [genuineName] at h
      simp at h
      simp only [nameStep]
      rw [if_pos (by tauto)]

theorem descStep_of_filled {d : Option String}
    (h : filledDesc d = true) (ds : String) : descStep ds d = d := by
  cases d with
  | none => simp [filledDesc] at h
  | some d =>
      simp only [filledDesc] at h
      simp at h
      simp only [descStep]
      rw [if_neg (by tauto)]

theorem descStep_of_not_filled {d : Option String}
    (h : filledDesc d = false) (ds : String) : descStep ds d = some ds := by
  cases d with
  | none => rfl
  | some d =>
      simp only [filledDesc] at h
      simp at h
      simp only [descStep]
      rw [if_pos (by tauto)]

/-- The per-emission step on the stored name of a row with key `(tid, tac)`. -/
def nameStepE (tid tac : String) (n : Option String) (e : Emission) : Option String :=
  if e.tid = tid ∧ e.tac = tac then nameStep tid e.nm n else n

/-- The per-emission step on the stored description of a row with key
`(tid, tac)`. -/
def descStepE (tid tac : String) (d : Option String) (e : Emission) : Option String :=
  if e.tid = tid ∧ e.tac = tac then descStep e.ds d else d

theorem stepRow_name (r : TTPRow) (e : Emission) :
    (stepRow r e).name = nameStepE r.technique_id r.tactic r.name e := by
  unfold stepRow nameStepE
  by_cases h : r.technique_id = e.tid ∧ r.tactic = e.tac
  · rw [if_pos h, if_pos ⟨h.1.symm, h.2.symm⟩, enrichRow_name]
  · rw [if_neg h, if_neg (fun hc => h ⟨hc.1.symm, hc.2.symm⟩)]

theorem stepRow_description (r : TTPRow) (e : Emission) :
    (stepRow r e).description = descStepE r.technique_id r.tactic r.description e := by
  unfold stepRow descStepE
  by_cases h : r.technique_id = e.tid ∧ r.tactic = e.tac
  · rw [if_pos h, if_pos ⟨h.1.symm, h.2.symm⟩, enrichRow_description]
  · rw [if_neg h, if_neg (fun hc => h ⟨hc.1.symm, hc.2.symm⟩)]

theorem foldl_stepRow_technique_id (E : List Emission) :
    ∀ r : TTPRow, (E.foldl stepRow r).technique_id = r.technique_id := by
  induction E with
  | nil => intro r; rfl
  | cons e E ih => intro r; rw [List.foldl_cons, ih, stepRow_technique_id]

theorem foldl_stepRow_tactic (E : List Emission) :
    ∀ r : TTPRow, (E.foldl stepRow r).tactic = r.tactic := by
  induction E with
  | nil => intro r; rfl
  | cons e E ih => intro r; rw [List.foldl_cons, ih, stepRow_tactic]

theorem foldl_stepRow_refs (E : List Emission) :
    ∀ r : TTPRow, (E.foldl stepRow r).refs = r.refs := by
  induction E with
  | nil => intro r; rfl
  | cons e E ih => intro r; rw [List.foldl_cons, ih, stepRow_refs]

theorem foldl_stepRow_created_at (E : List Emission) :
    ∀ r : TTPRow, (E.foldl stepRow r).created_at = r.created_at := by
  induction E with
  | nil => intro r; rfl
  | cons e E ih => intro r; rw [List.foldl_cons, ih, stepRow_created_at]

theorem foldl_stepRow_name (E : List Emission) :
    ∀ r : TTPRow, (E.foldl stepRow r).name =
      E.foldl (nameStepE r.technique_id r.tactic) r.name := by
  induction E with
  | nil => intro r; rfl
  | cons e E ih =>
      intro r
      rw [List.foldl_cons, List.foldl_cons, ih, stepRow_name,
        stepRow_technique_id, stepRow_tactic]

theorem foldl_stepRow_description (E : List Emission) :
    ∀ r : TTPRow, (E.foldl stepRow r).description =
      E.foldl (descStepE r.technique_id r.tactic) r.description := by
  induction E with
  | nil => intro r; rfl
  | cons e E ih =>
      intro r
      rw [List.foldl_cons, List.foldl_cons, ih, stepRow_description,
        stepRow_technique_id, stepRow_tactic]

/-! ## Generic guarded-fold replay lemmas

An abstract update step `step x v` that ignores `v` when `guard v` is off,
keeps any `p`-good state unchanged, and resets any `p`-bad state to a value
`g v` depending only on `v`, absorbs replays: folding a list of updates a
second time (or prepending the update that produced the start state) changes
nothing.  The name and description `CASE` updates are both of this shape. -/

theorem foldl_fix_of_p {α β : Type} (p : α → Bool) (guard : β → Bool)
    (step : α → β → α)
    (h0 : ∀ x v, guard v = false → step x v = x)
    (h1 : ∀ x v, guard v = true → p x = true → step x v = x) :
    ∀ (vs : List β) (x : α), p x = true → vs.foldl step x = x := by
  intro vs
  induction vs with
  | nil => intro x _; rfl
  | cons v vs ih =>
      intro x hx
      rw [List.foldl_cons]
      cases hg : guard v with
      | false => rw [h0 x v hg]; exact ih x hx
      | true => rw [h1 x v hg hx]; exact ih x hx

theorem foldl_replay {α β : Type} (p : α → Bool) (guard : β → Bool) (g : β → α)
    (step : α → β → α)
    (h0 : ∀ x v, guard v = false → step x v = x)
    (h1 : ∀ x v, guard v = true → p x = true → step x v = x)
    (h2 : ∀ x v, guard v = true → p x = false → step x v = g v) :
    ∀ (vs : List β) (x : α), vs.foldl step (vs.foldl step x) = vs.foldl step x := by
  intro vs
  induction vs with
  | nil => intro x; rfl
  | cons v vs ih =>
      intro x
      simp only [List.foldl_cons]
      cases hg : guard v with
      | false =>
          rw [h0 x v hg, h0 (vs.foldl step x) v hg]
          exact ih x
      | true =>
          cases hp : p x with
          | true =>
              have hfix : vs.foldl step x = x := foldl_fix_of_p p guard step h0 h1 vs x hp
              rw [h1 x v hg hp, hfix, h1 x v hg hp, hfix]
          | false =>
              rw [h2 x v hg hp]
              cases hf : p (vs.foldl step (g v)) with
              | true =>
                  rw [h1 _ v hg hf]
                  exact foldl_fix_of_p p guard step h0 h1 vs _ hf
              | false => rw [h2 _ v hg hf]

theorem foldl_replay_from_reset {α β : Type} (p : α → Bool) (guard : β → Bool)
    (g : β → α) (step : α → β → α)
    (h0 : ∀ x v, guard v = false → step x v = x)
    (h1 : ∀ x v, guard v = true → p x = true → step x v = x)
    (h2 : ∀ x v, guard v = true → p x = false → step x v = g v)
    (vs : List β) (v : β) (hv : guard v = true) :
    (v :: vs).foldl step (vs.foldl step (g v)) = vs.foldl step (g v) := by
  rw [List.foldl_cons]
  cases hf : p (vs.foldl step (g v)) with
  | true =>
      rw [h1 _ v hv hf]
      exact foldl_fix_of_p p guard step h0 h1 vs _ hf
  | false => rw [h2 _ v hv hf]

/-! ## Row-level replay lemmas -/

theorem TTPRow.ext_fields {a b : TTPRow} (h1 : a.technique_id = b.technique_id)
    (h2 : a.tactic = b.tactic) (h3 : a.name = b.name)
    (h4 : a.description = b.description) (h5 : a.refs = b.refs)
    (h6 : a.created_at = b.created_at) : a = b := by
  cases a; cases b; simp_all

theorem nameStepE_guard_false {tid tac : String} {e : Emission}
    (h : decide (e.tid = tid ∧ e.tac = tac) = false) (n : Option String) :
    nameStepE tid tac n e = n := by
  unfold nameStepE
  rw [if_neg (of_decide_eq_false h)]

theorem nameStepE_genuine {tid tac : String} {e : Emission}
    (hg : decide (e.tid = tid ∧ e.tac = tac) = true) {n : Option String}
    (hp : genuineName tid n = true) : nameStepE tid tac n e = n := by
  unfold nameStepE
  rw [if_pos (of_decide_eq_true hg)]
  exact nameStep_of_genuine hp e.nm

theorem nameStepE_reset {tid tac : String} {e : Emission}
    (hg : decide (e.tid = tid ∧ e.tac = tac) = true) {n : Option String}
    (hp : genuineName tid n = false) : nameStepE tid tac n e = some e.nm := by
  unfold nameStepE
  rw [if_pos (of_decide_eq_true hg)]
  exact nameStep_of_not_genuine hp e.nm

theorem descStepE_guard_false {tid tac : String} {e : Emission}
    (h : decide (e.tid = tid ∧ e.tac = tac) = false) (d : Option String) :
    descStepE tid tac d e = d := by
  unfold descStepE
  rw [if_neg (of_decide_eq_false h)]

theorem descStepE_filled {tid tac : String} {e : Emission}
    (hg : decide (e.tid = tid ∧ e.tac = tac) = true) {d : Option String}
    (hp : filledDesc d = true) : descStepE tid tac d e = d := by
  unfold descStepE
  rw [if_pos (of_decide_eq_true hg)]
  exact descStep_of_filled hp e.ds

theorem descStepE_reset {tid tac : String} {e : Emission}
    (hg : decide (e.tid = tid ∧ e.tac = tac) = true) {d : Option String}
    (hp : filledDesc d = false) : descStepE tid tac d e = some e.ds := by
  unfold descStepE
  rw [if_pos (of_decide_eq_true hg)]
  exact descStep_of_not_filled hp e.ds

theorem foldl_nameStepE_replay (tid tac : String) (E : List Emission) (n : Option String) :
    E.foldl (nameStepE tid tac) (E.foldl (nameStepE tid tac) n) =
      E.foldl (nameStepE tid tac) n :=
  foldl_replay (genuineName tid) (fun e => decide (e.tid = tid ∧ e.tac = tac))
    (fun e => some e.nm) (nameStepE tid tac)
    (fun n e h => nameStepE_guard_false h n)
    (fun _ e hg hp => nameStepE_genuine hg hp)
    (fun _ e hg hp => nameStepE_reset hg hp) E n

theorem foldl_descStepE_replay (tid tac : String) (E : List Emission) (d : Option String) :
    E.foldl (descStepE tid tac) (E.foldl (descStepE tid tac) d) =
      E.foldl (descStepE tid tac) d :=
  foldl_replay (filledDesc) (fun e => decide (e.tid = tid ∧ e.tac = tac))
    (fun e => some e.ds) (descStepE tid tac)
    (fun d e h => descStepE_guard_false h d)
    (fun _ e hg hp => descStepE_filled hg hp)
    (fun _ e hg hp => descStepE_reset hg hp) E d

/-- Replaying a whole emission list on a row that is itself the result of that
emission list changes nothing. -/
theorem foldl_stepRow_replay (E : List Emission) (r : TTPRow) :
    E.foldl stepRow (E.foldl stepRow r) = E.foldl stepRow r := by
  apply TTPRow.ext_fields
  · rw [foldl_stepRow_technique_id, foldl_stepRow_technique_id]
  · rw [foldl_stepRow_tactic, foldl_stepRow_tactic]
  · rw [foldl_stepRow_name, foldl_stepRow_name, foldl_stepRow_technique_id,
      foldl_stepRow_tactic]
    exact foldl_nameStepE_replay r.technique_id r.tactic E r.name
  · rw [foldl_stepRow_description, foldl_stepRow_description, foldl_stepRow_technique_id,
      foldl_stepRow_tactic]
    exact foldl_descStepE_replay r.technique_id r.tactic E r.description
  · rw [foldl_stepRow_refs, foldl_stepRow_refs]
  · rw [foldl_stepRow_created_at, foldl_stepRow_created_at]

theorem stepRow_nonmatch {r : TTPRow} {e : Emission}
    (h : (e.tid, e.tac) ≠ (r.technique_id, r.tactic)) : stepRow r e = r := by
  unfold stepRow
  rw [if_neg (fun hc => h (by rw [hc.1, hc.2]))]

theorem foldl_stepRow_nonmatching :
    ∀ (E1 : List Emission) (r : TTPRow),
      (∀ e' ∈ E1, (e'.tid, e'.tac) ≠ (r.technique_id, r.tactic)) →
      E1.foldl stepRow r = r := by
  intro E1
  induction E1 with
  | nil => intro r _; rfl
  | cons e E1 ih =>
      intro r h
      rw [List.foldl_cons, stepRow_nonmatch (h e (List.mem_cons_self e E1))]
      exact ih r (fun e' he' => h e' (List.mem_cons_of_mem e he'))

/-- The insert of an emission followed by its own update is just the insert. -/
theorem stepRow_insRow (now : String) (e : Emission) :
    stepRow (insRow now e) e = insRow now e := by
  unfold stepRow insRow
  rw [if_pos ⟨rfl, rfl⟩]
  unfold enrichRow
  by_cases h1 : e.nm = "" ∨ e.nm = e.tid <;> by_cases h2 : e.ds = "" <;>
    simp [h1, h2]

/-- Replaying a whole emission list on a row that was inserted at its first
matching emission `e` and then processed by the remainder `E2` changes
nothing. -/
theorem foldl_stepRow_replay_ins (now : String) (E1 : List Emission) (e : Emission)
    (E2 : List Emission)
    (hnm : ∀ e' ∈ E1, (e'.tid, e'.tac) ≠ (e.tid, e.tac)) :
    (E1 ++ e :: E2).foldl stepRow (E2.foldl stepRow (insRow now e)) =
      E2.foldl stepRow (insRow now e) := by
  have htid : (E2.foldl stepRow (insRow now e)).technique_id = e.tid :=
    foldl_stepRow_technique_id E2 (insRow now e)
  have htac : (E2.foldl stepRow (insRow now e)).tactic = e.tac :=
    foldl_stepRow_tactic E2 (insRow now e)
  rw [List.foldl_append]
  rw [foldl_stepRow_nonmatching E1 _ (fun e' he' => by rw [htid, htac]; exact hnm e' he')]
  have hguard : decide (e.tid = e.tid ∧ e.tac = e.tac) = true := by simp
  apply TTPRow.ext_fields
  · rw [foldl_stepRow_technique_id]
  · rw [foldl_stepRow_tactic]
  · rw [foldl_stepRow_name, htid, htac]
    have hn : (E2.foldl stepRow (insRow now e)).name =
        E2.foldl (nameStepE e.tid e.tac) (some e.nm) :=
      foldl_stepRow_name E2 (insRow now e)
    rw [hn]
    exact foldl_replay_from_reset (genuineName e.tid)
      (fun f => decide (f.tid = e.tid ∧ f.tac = e.tac)) (fun f => some f.nm)
      (nameStepE e.tid e.tac)
      (fun n f h => nameStepE_guard_false h n)
      (fun _ f hg hp => nameStepE_genuine hg hp)
      (fun _ f hg hp => nameStepE_reset hg hp) E2 e hguard
  · rw [foldl_stepRow_description, htid, htac]
    have hd : (E2.foldl stepRow (insRow now e)).description =
        E2.foldl (descStepE e.tid e.tac) (some e.ds) :=
      foldl_stepRow_description E2 (insRow now e)
    rw [hd]
    exact foldl_replay_from_reset (filledDesc)
      (fun f => decide (f.tid = e.tid ∧ f.tac = e.tac)) (fun f => some f.ds)
      (descStepE e.tid e.tac)
      (fun d f h => descStepE_guard_false h d)
      (fun _ f hg hp => descStepE_filled hg hp)
      (fun _ f hg hp => descStepE_reset hg hp) E2 e hguard
  · rw [foldl_stepRow_refs]
  · rw [foldl_stepRow_created_at]

/-! ## Catalog-level pass analysis -/

/-- Every row of a finished enrichment pass is either a pre-existing row with
the whole emission list's updates applied, or the row inserted at the first
emission matching a key absent from the starting catalog, with the remaining
emissions' updates applied. -/
theorem memb_pass (now : String) :
    ∀ (E : List Emission) (cat : List TTPRow) (r : TTPRow),
      r ∈ E.foldl (applyEmission now) cat →
      (∃ r0 ∈ cat, r = E.foldl stepRow r0) ∨
      (∃ E1 e E2, E = E1 ++ e :: E2 ∧
        keyMem cat (e.tid, e.tac) = false ∧
        (∀ e' ∈ E1, (e'.tid, e'.tac) ≠ (e.tid, e.tac)) ∧
        r = E2.foldl stepRow (insRow now e)) := by
  intro E
  induction E with
  | nil =>
      intro cat r hr
      exact Or.inl ⟨r, hr, rfl⟩
  | cons e E ih =>
      intro cat r hr
      rw [List.foldl_cons] at hr
      rcases ih (applyEmission now cat e) r hr with
        ⟨r0p, hr0p, hreq⟩ | ⟨E1, f, E2, hsplit, hkm, hnomatch, hreq⟩
      · rw [applyEmission_eq] at hr0p
        rcases List.mem_map.mp hr0p with ⟨r0, hr0i, hstep⟩
        by_cases hins : keyMem cat (rowKey (insRow now e)) = true
        · rw [insertOrIgnore_of_keyMem hins] at hr0i
          refine Or.inl ⟨r0, hr0i, ?_⟩
          rw [List.foldl_cons, hstep]
          exact hreq
        · have hfalse : keyMem cat (rowKey (insRow now e)) = false := by
            revert hins; cases keyMem cat (rowKey (insRow now e)) <;> simp
          unfold insertOrIgnore at hr0i
          rw [hfalse] at hr0i
          simp only [Bool.false_eq_true, if_false] at hr0i
          rcases List.mem_append.mp hr0i with hmem | hmem
          · refine Or.inl ⟨r0, hmem, ?_⟩
            rw [List.foldl_cons, hstep]
            exact hreq
          · have hr0e : r0 = insRow now e := List.mem_singleton.mp hmem
            refine Or.inr ⟨[], e, E, rfl, ?_, ?_, ?_⟩
            · rw [← rowKey_insRow now e]
              exact hfalse
            · intro e' he'
              cases he'
            · rw [hreq, ← hstep, hr0e, stepRow_insRow]
      · refine Or.inr ⟨e :: E1, f, E2, by rw [hsplit]; rfl, ?_, ?_, hreq⟩
        · cases hc : keyMem cat (f.tid, f.tac) with
          | false => rfl
          | true =>
              have := keyMem_applyEmission_mono now e hc
              rw [this] at hkm
              cases hkm
        · intro e' he'
          rcases List.mem_cons.mp he' with he' | he'
          · subst he'
            intro hcontra
            have := keyMem_applyEmission_self now cat e'
            rw [hcontra] at this
            rw [this] at hkm
            cases hkm
          · exact hnomatch e' he'

/-- Every row of a finished enrichment pass is a fixed point of replaying the
whole emission list on it. -/
theorem fixall (now : String) (E : List Emission) (cat : List TTPRow) :
    ∀ r ∈ E.foldl (applyEmission now) cat, E.foldl stepRow r = r := by
  intro r hr
  rcases memb_pass now E cat r hr with ⟨r0, _, hreq⟩ | ⟨E1, e, E2, hsplit, _, hnm, hreq⟩
  · rw [hreq]
    exact foldl_stepRow_replay E r0
  · rw [hsplit, hreq]
    exact foldl_stepRow_replay_ins now E1 e E2 hnm

/-- When every emission's key is already present, the pass performs no insert:
it is a pure sequence of updates. -/
theorem foldl_applyEmission_of_keys (now : String) :
    ∀ (E : List Emission) (cat : List TTPRow),
      (∀ e ∈ E, keyMem cat (e.tid, e.tac) = true) →
      E.foldl (applyEmission now) cat =
        E.foldl (fun c e => c.map (fun r => stepRow r e)) cat := by
  intro E
  induction E with
  | nil => intro cat _; rfl
  | cons e E ih =>
      intro cat hk
      rw [List.foldl_cons, List.foldl_cons]
      have h1 : applyEmission now cat e = cat.map (fun r => stepRow r e) := by
        rw [applyEmission_eq, insertOrIgnore_of_keyMem]
        rw [rowKey_insRow]
        exact hk e (List.mem_cons_self e E)
      rw [h1]
      apply ih
      intro e' he'
      rw [keyMem_map_stepRow]
      exact hk e' (List.mem_cons_of_mem e he')

/-- A pure sequence of updates acts row by row. -/
theorem foldl_updateOnly_eq_map :
    ∀ (E : List Emission) (cat : List TTPRow),
      E.foldl (fun c e => c.map (fun r => stepRow r e)) cat =
        cat.map (fun r => E.foldl stepRow r) := by
  intro E
  induction E with
  | nil =>
      intro cat
      simp
  | cons e E ih =>
      intro cat
      rw [List.foldl_cons, ih, List.map_map]
      rfl

/-- Replaying a whole emission pass on its own result is a no-op, even at a
different timestamp. -/
theorem emission_pass_idem (now now2 : String) (E : List Emission) (cat : List TTPRow) :
    E.foldl (applyEmission now2) (E.foldl (applyEmission now) cat) =
      E.foldl (applyEmission now) cat := by
  rw [foldl_applyEmission_of_keys now2 E (E.foldl (applyEmission now) cat)
      (keys_after_pass now E cat),
    foldl_updateOnly_eq_map]
  have h2 : (E.foldl (applyEmission now) cat).map (fun r => E.foldl stepRow r) =
      (E.foldl (applyEmission now) cat).map (fun r => r) :=
    List.map_congr_left (fun r hr => fixall now E cat r hr)
  rw [h2]
  simp

/-! ## Insert-only passes (STIX / Navigator): keys and replays -/

theorem keyMem_foldl_insertOrIgnore_mono {k : String × String} :
    ∀ (rows : List TTPRow) (cat : List TTPRow), keyMem cat k = true →
      keyMem (rows.foldl insertOrIgnore cat) k = true := by
  intro rows
  induction rows with
  | nil => intro cat h; exact h
  | cons row rows ih =>
      intro cat h
      exact ih (insertOrIgnore cat row) (keyMem_insertOrIgnore_mono row h)

theorem keyMem_foldl_insertOrIgnore_self :
    ∀ (rows : List TTPRow) (cat : List TTPRow) (r : TTPRow), r ∈ rows →
      keyMem (rows.foldl insertOrIgnore cat) (rowKey r) = true := by
  intro rows
  induction rows with
  | nil => intro cat r hr; cases hr
  | cons row rows ih =>
      intro cat r hr
      rcases List.mem_cons.mp hr with hr | hr
      · subst hr
        exact keyMem_foldl_insertOrIgnore_mono rows _ (keyMem_insertOrIgnore_self cat r)
      · exact ih _ r hr

theorem foldl_insertOrIgnore_noop :
    ∀ (rows : List TTPRow) (cat : List TTPRow),
      (∀ r ∈ rows, keyMem cat (rowKey r) = true) →
      rows.foldl insertOrIgnore cat = cat := by
  intro rows
  induction rows with
  | nil => intro cat _; rfl
  | cons row rows ih =>
      intro cat h
      rw [List.foldl_cons, insertOrIgnore_of_keyMem (h row (List.mem_cons_self row rows))]
      exact ih cat (fun r hr => h r (List.mem_cons_of_mem row hr))

theorem foldl_insertOrIgnore_idem (rows1 rows2 : List TTPRow) (cat : List TTPRow)
    (hkeys : rows2.map rowKey = rows1.map rowKey) :
    rows2.foldl insertOrIgnore (rows1.foldl insertOrIgnore cat) =
      rows1.foldl insertOrIgnore cat := by
  apply foldl_insertOrIgnore_noop
  intro r hr
  have hmem : rowKey r ∈ rows1.map rowKey := by
    rw [← hkeys]
    exact List.mem_map_of_mem rowKey hr
  rcases List.mem_map.mp hmem with ⟨r1, hr1, hk⟩
  rw [← hk]
  exact keyMem_foldl_insertOrIgnore_self rows1 cat r1 hr1

theorem stixObjectRows_keys (now now2 : String) (obj : StixObject) :
    (stixObjectRows now obj).map rowKey = (stixObjectRows now2 obj).map rowKey := by
  unfold stixObjectRows
  by_cases h : obj.objType = "attack-pattern"
  · rw [if_pos h, if_pos h]
    cases stixTechId obj.external_references with
    | none => rfl
    | some tid =>
        rw [List.map_map, List.map_map]
        rfl
  · rw [if_neg h, if_neg h]

theorem stixRows_keys (now now2 : String) :
    ∀ objs : List StixObject,
      ((objs.map (stixObjectRows now)).flatten).map rowKey =
        ((objs.map (stixObjectRows now2)).flatten).map rowKey := by
  intro objs
  induction objs with
  | nil => rfl
  | cons o objs ih =>
      simp only [List.map_cons, List.flatten_cons, List.map_append]
      rw [stixObjectRows_keys now now2 o, ih]

theorem navEntryRow_keys (now now2 : String) (t : NavEntry) :
    (navEntryRow now t).map rowKey = (navEntryRow now2 t).map rowKey := by
  unfold navEntryRow
  by_cases h : t.techniqueID.getD "" = "" ∨ strLower (t.tactic.getD "") = ""
  · simp [h]
  · simp [h]
    rfl

theorem navRows_keys (now now2 : String) :
    ∀ ts : List NavEntry,
      (ts.filterMap (navEntryRow now)).map rowKey =
        (ts.filterMap (navEntryRow now2)).map rowKey := by
  intro ts
  induction ts with
  | nil => rfl
  | cons t ts ih =>
      rw [List.filterMap_cons, List.filterMap_cons]
      cases h1 : navEntryRow now t with
      | none =>
          have h2 : navEntryRow now2 t = none := by
            have := navEntryRow_keys now now2 t
            rw [h1] at this
            cases h : navEntryRow now2 t
            · rfl
            · rw [h] at this; cases this
          rw [h2]
          exact ih
      | some r =>
          have hkeys := navEntryRow_keys now now2 t
          rw [h1] at hkeys
          cases h2 : navEntryRow now2 t with
          | none => rw [h2] at hkeys; cases hkeys
          | some r2 =>
              rw [h2] at hkeys
              have hk : rowKey r = rowKey r2 := by
                simpa using hkeys
              simp only [List.map_cons]
              rw [ih, hk]

/-! ## Unique-key invariant -/

theorem keysNodup_insertOrIgnore {cat : List TTPRow} (row : TTPRow)
    (h : keysNodup cat) : keysNodup (insertOrIgnore cat row) := by
  unfold insertOrIgnore
  by_cases hm : keyMem cat (rowKey row) = true
  · rw [if_pos hm]; exact h
  · rw [if_neg hm]
    unfold keysNodup at h ⊢
    rw [List.map_append]
    refine List.Nodup.append h (List.nodup_singleton _) ?_
    intro x hx hx2
    rw [List.map_singleton, List.mem_singleton] at hx2
    subst hx2
    apply hm
    rw [keyMem_iff]
    rcases List.mem_map.mp hx with ⟨r, hr, hk⟩
    exact ⟨r, hr, hk⟩

theorem keysNodup_foldl_insertOrIgnore :
    ∀ (rows : List TTPRow) (cat : List TTPRow), keysNodup cat →
      keysNodup (rows.foldl insertOrIgnore cat) := by
  intro rows
  induction rows with
  | nil => intro cat h; exact h
  | cons row rows ih =>
      intro cat h
      exact ih _ (keysNodup_insertOrIgnore row h)

theorem keysNodup_map_stepRow {cat : List TTPRow} (e : Emission)
    (h : keysNodup cat) : keysNodup (cat.map (fun r => stepRow r e)) := by
  unfold keysNodup
  rw [map_rowKey_map_stepRow]
  exact h

theorem keysNodup_applyEmission (now : String) {cat : List TTPRow} (e : Emission)
    (h : keysNodup cat) : keysNodup (applyEmission now cat e) := by
  rw [applyEmission_eq]
  exact keysNodup_map_stepRow e (keysNodup_insertOrIgnore _ h)

theorem keysNodup_foldl_applyEmission (now : String) :
    ∀ (E : List Emission) (cat : List TTPRow), keysNodup cat →
      keysNodup (E.foldl (applyEmission now) cat) := by
  intro E
  induction E with
  | nil => intro cat h; exact h
  | cons e E ih =>
      intro cat h
      exact ih _ (keysNodup_applyEmission now e h)

theorem keysNodup_applyOp (now : String) (op : IngestOp) {cat : List TTPRow}
    (h : keysNodup cat) : keysNodup (applyOp now cat op) := by
  cases op with
  | seed =>
      show keysNodup (seed_minimal_ttps now cat)
      unfold seed_minimal_ttps
      by_cases hc : cat.length = 0
      · rw [if_pos hc]
        exact keysNodup_foldl_insertOrIgnore _ cat h
      · rw [if_neg hc]
        exact h
  | stix objs => exact keysNodup_foldl_insertOrIgnore _ cat h
  | nav es => exact keysNodup_foldl_insertOrIgnore _ cat h
  | xlsx sheets => exact keysNodup_foldl_applyEmission now _ cat h

/-! ## Claim theorems -/

/-- Claim C1, counterexample:  The claim states the stored name is changed only
when the incoming name is non-empty.  But on the stored record
`(T1059, execution)` whose name is the placeholder `"T1059"`, the enrichment
update with incoming name `""` changes the stored name (to `""`): the `CASE`
expression never tests the incoming value. -/
theorem C1_counterexample :
    ¬ (∀ (r : TTPRow) (nm ds : String),
        (enrichRow nm ds r).name ≠ r.name → ¬ nm = "") := by
  intro h
  exact h ⟨"T1059", "execution", some "T1059", some "x", "", "t0"⟩ "" "y"
    (by decide) rfl

/-- Claim C1, amended:  For every existing catalog record and incoming
enrichment candidate with the same key: the stored name is replaced by the
incoming name exactly when the stored name is missing, empty, or equal to the
technique id — even when the incoming name is empty; a stored name that is
non-empty and differs from the technique id is never changed.  The stored
description is replaced exactly when it is missing or empty — even by an empty
incoming description when it is missing; a non-empty stored description is
never overwritten. -/
theorem C1_amended (r : TTPRow) (nm ds : String) :
    ((r.name = none ∨ r.name = some "" ∨ r.name = some r.technique_id) →
        (enrichRow nm ds r).name = some nm)
    ∧ ((r.name ≠ none ∧ r.name ≠ some "" ∧ r.name ≠ some r.technique_id) →
        (enrichRow nm ds r).name = r.name)
    ∧ ((r.description = none ∨ r.description = some "") →
        (enrichRow nm ds r).description = some ds)
    ∧ ((r.description ≠ none ∧ r.description ≠ some "") →
        (enrichRow nm ds r).description = r.description) := by
  refine ⟨?_, ?_, ?_, ?_⟩
  · intro h
    rw [enrichRow_name]
    rcases h with h | h | h
    · rw [h]; rfl
    · rw [h]
      simp [nameStep]
    · rw [h]
      simp [nameStep]
  · rintro ⟨h1, h2, h3⟩
    rw [enrichRow_name]
    cases hn : r.name with
    | none => exact absurd hn h1
    | some n =>
        simp only [nameStep]
        rw [if_neg (fun hc => hc.elim
          (fun hce => h2 (by rw [hn, hce]))
          (fun hct => h3 (by rw [hn, hct])))]
  · intro h
    rw [enrichRow_description]
    rcases h with h | h
    · rw [h]; rfl
    · rw [h]
      simp [descStep]
  · rintro ⟨h1, h2⟩
    rw [enrichRow_description]
    cases hd : r.description with
    | none => exact absurd hd h1
    | some d =>
        simp only [descStep]
        rw [if_neg (fun hc => h2 (by rw [hd, hc]))]

/-- Claim C1, witness:  A placeholder name (`"T1000"` on technique `T1000`) is
replaced by an incoming genuine name. -/
theorem C1_witness :
    (enrichRow "New Name" "New Desc"
      ⟨"T1000", "execution", some "T1000", some "", "", "t0"⟩).name = some "New Name" :=
  (C1_amended ⟨"T1000", "execution", some "T1000", some "", "", "t0"⟩
    "New Name" "New Desc").1 (Or.inr (Or.inr rfl))

/-- Claim C3, counterexample:  The claim states that replaying a batch on a
catalog that already absorbed it reports a change count of 0.  Replaying the
one-entry flat-list batch `[{techniqueID: T1059, tactic: execution}]` leaves
the catalog unchanged, but the second pass reports 1, not 0: the importer
counts every accepted candidate whether or not the insert was ignored. -/
theorem C3_counterexample :
    (tryImportNav "t1" (tryImportNav "t0" [] [⟨some "T1059", some "execution"⟩]).1
        [⟨some "T1059", some "execution"⟩]).1 =
      (tryImportNav "t0" [] [⟨some "T1059", some "execution"⟩]).1
    ∧ (tryImportNav "t1" (tryImportNav "t0" [] [⟨some "T1059", some "execution"⟩]).1
        [⟨some "T1059", some "execution"⟩]).2 = 1 := by
  constructor
  · decide
  · decide

/-- Claim C3, amended:  For every batch from any one source (STIX bundle,
Navigator flat list, or spreadsheet workbook), replaying the batch on the
catalog that already absorbed it leaves the catalog state unchanged (even at a
later timestamp); the second pass, however, reports the same change count as
the first — the number of accepted candidates — not 0, because the counter
counts processed candidates rather than effective changes. -/
theorem C3_amended (now now2 : String) (cat : List TTPRow)
    (objs : List StixObject) (es : List NavEntry) (sheets : List Sheet) :
    ((tryImportStix now2 (tryImportStix now cat objs).1 objs).1 =
        (tryImportStix now cat objs).1
      ∧ (tryImportStix now2 (tryImportStix now cat objs).1 objs).2 =
        (tryImportStix now cat objs).2)
    ∧ ((tryImportNav now2 (tryImportNav now cat es).1 es).1 =
        (tryImportNav now cat es).1
      ∧ (tryImportNav now2 (tryImportNav now cat es).1 es).2 =
        (tryImportNav now cat es).2)
    ∧ ((tryEnrichXlsx now2 (tryEnrichXlsx now cat sheets).1 sheets).1 =
        (tryEnrichXlsx now cat sheets).1
      ∧ (tryEnrichXlsx now2 (tryEnrichXlsx now cat sheets).1 sheets).2 =
        (tryEnrichXlsx now cat sheets).2) := by
  refine ⟨⟨?_, ?_⟩, ⟨?_, ?_⟩, ?_, ?_⟩
  · exact foldl_insertOrIgnore_idem _ _ cat (stixRows_keys now2 now objs)
  · show ((objs.map (stixObjectRows now2)).flatten).length =
      ((objs.map (stixObjectRows now)).flatten).length
    have h := congrArg List.length (stixRows_keys now2 now objs)
    rwa [List.length_map, List.length_map] at h
  · exact foldl_insertOrIgnore_idem _ _ cat (navRows_keys now2 now es)
  · show (es.filterMap (navEntryRow now2)).length = (es.filterMap (navEntryRow now)).length
    have h := congrArg List.length (navRows_keys now2 now es)
    rwa [List.length_map, List.length_map] at h
  · exact emission_pass_idem now now2 (xlsxEmissions sheets) cat
  · rfl

/-- Claim C4:  Starting from a catalog with pairwise-distinct
`(techniqueId, tacticId)` keys (in particular, the empty catalog), applying any
sequence of ingestion operations — seeding, STIX bundle import, Navigator
flat-list import, spreadsheet enrichment — never produces two rows with the
same key: every insert is an insert-if-absent on the unique key and every
update preserves keys, while the same technique id under two different tactics
occupies two distinct rows. -/
theorem C4_unique_keys (now : String) (cat : List TTPRow) (ops : List IngestOp)
    (h : keysNodup cat) :
    keysNodup (ops.foldl (applyOp now) cat) := by
  induction ops generalizing cat with
  | nil => exact h
  | cons op ops ih => exact ih _ (keysNodup_applyOp now op h)

/-- Claim C4, witness:  Importing `T1059` under two different tactics yields two
rows; re-importing one of the pairs leaves the catalog at two rows with
distinct keys. -/
theorem C4_witness :
    keysNodup ([IngestOp.nav [⟨some "T1059", some "execution"⟩,
        ⟨some "T1059", some "persistence"⟩],
      IngestOp.nav [⟨some "T1059", some "execution"⟩]].foldl (applyOp "t0") [])
    ∧ ([IngestOp.nav [⟨some "T1059", some "execution"⟩,
        ⟨some "T1059", some "persistence"⟩],
      IngestOp.nav [⟨some "T1059", some "execution"⟩]].foldl (applyOp "t0") []).length = 2 :=
  ⟨C4_unique_keys "t0" [] _ (by simp [keysNodup]), by decide⟩

/-- Claim C5, counterexample:  The claim states the tactics cell is split on the
word `"and"`.  It is not: the code splits on `","`, `"/"` and `" & "` only, so
the cell `"Initial Access and Execution"` normalizes to the single unknown
token `initial-access-and-execution` and contributes zero candidates, where
the claim requires the two candidates `initial-access` and `execution`
(which the `" & "` spelling does produce). -/
theorem C5_counterexample :
    rowEmissions 0 1 none 2
        [some "T1059", some "X", some "Initial Access and Execution"] = []
    ∧ acceptedTactics "Initial Access and Execution" = []
    ∧ acceptedTactics "Initial Access & Execution" = ["initial-access", "execution"]
    ∧ isRegistryTactic (normTactic "Initial Access") = true
    ∧ isRegistryTactic (normTactic " Execution") = true := by
  refine ⟨by decide, by decide, by decide, by decide, by decide⟩

/-- Claim C5, amended:  The tactics cell is split on commas, slashes, and
ampersands surrounded by single spaces (`" & "`) — not on the word `"and"`;
each token is trimmed, lower-cased, and has internal spaces replaced by
hyphens; tokens not in the Tactic Registry are dropped without error; a row
whose tactics cell is empty or whose every token is unrecognized contributes
zero candidates; and a cell `"Initial Access, Execution"` yields exactly the
two candidates `initial-access` and `execution`. -/
theorem C5_amended :
    (∀ raw : String, ∀ t ∈ acceptedTactics raw, isRegistryTactic t = true)
    ∧ (∀ (ci cn : Nat) (cd : Option Nat) (ct : Nat) (row : List (Option String)),
        strTrim ((row.getD ct none).getD "") = "" →
        rowEmissions ci cn cd ct row = [])
    ∧ (∀ raw : String,
        (∀ t ∈ splitTactics raw, isRegistryTactic (normTactic t) = false) →
        acceptedTactics raw = [])
    ∧ rowEmissions 0 1 (some 3) 2
        [some "T1059", some "Name", some "Initial Access, Execution", some "D"] =
      [⟨"T1059", "initial-access", "Name", "D"⟩, ⟨"T1059", "execution", "Name", "D"⟩] := by
  refine ⟨?_, ?_, ?_, by decide⟩
  · intro raw t ht
    exact List.of_mem_filter ht
  · intro ci cn cd ct row h
    simp only [rowEmissions]
    by_cases h1 : strStartsWith (strTrim ((row.getD ci none).getD "")) "T" = false
    · rw [if_pos h1]
    · rw [if_neg h1, if_pos h]
  · intro raw h
    unfold acceptedTactics
    rw [List.filter_eq_nil_iff]
    intro t ht
    rcases List.mem_map.mp ht with ⟨t0, ht0, rfl⟩
    rw [h t0 ht0]
    exact Bool.false_ne_true

/-- Claim C5, witness:  The empty-cell rule applied to a concrete row. -/
theorem C5_witness :
    rowEmissions 0 1 none 2 [some "T1059", some "X", some "   "] = [] :=
  C5_amended.2.1 0 1 none 2 [some "T1059", some "X", some "   "] (by decide)

/-! Well-formedness of spreadsheet emissions: every accepted quadruple has an
identifier starting with `"T"` and a registry tactic. -/

theorem rowEmissions_wf (ci cn : Nat) (cd : Option Nat) (ct : Nat)
    (row : List (Option String)) :
    ∀ e ∈ rowEmissions ci cn cd ct row,
      strStartsWith e.tid "T" = true ∧ isRegistryTactic e.tac = true := by
  intro e he
  simp only [rowEmissions] at he
  by_cases h1 : strStartsWith (strTrim ((row.getD ci none).getD "")) "T" = false
  · rw [if_pos h1] at he
    cases he
  · rw [if_neg h1] at he
    by_cases h2 : strTrim ((row.getD ct none).getD "") = ""
    · rw [if_pos h2] at he
      cases he
    · rw [if_neg h2] at he
      rcases List.mem_map.mp he with ⟨tac, htac, hemk⟩
      subst hemk
      constructor
      · cases hb : strStartsWith (strTrim ((row.getD ci none).getD "")) "T" with
        | false => exact absurd hb h1
        | true => rfl
      · exact List.of_mem_filter htac

theorem sheetEmissions_wf (s : Sheet) :
    ∀ e ∈ sheetEmissions s,
      strStartsWith e.tid "T" = true ∧ isRegistryTactic e.tac = true := by
  intro e he
  simp only [sheetEmissions] at he
  split at he
  · rcases List.mem_flatten.mp he with ⟨l, hl, hel⟩
    rcases List.mem_map.mp hl with ⟨row, hrow, hleq⟩
    subst hleq
    exact rowEmissions_wf _ _ _ _ row e hel
  · cases he

theorem xlsxEmissions_wf (sheets : List Sheet) :
    ∀ e ∈ xlsxEmissions sheets,
      strStartsWith e.tid "T" = true ∧ isRegistryTactic e.tac = true := by
  intro e he
  unfold xlsxEmissions at he
  rcases List.mem_flatten.mp he with ⟨l, hl, hel⟩
  rcases List.mem_map.mp hl with ⟨s, hs, hleq⟩
  subst hleq
  exact sheetEmissions_wf s e hel

/-- Claim C2, counterexample:  The claim states every candidate with a
pattern-invalid technique id or a non-registry tactic is dropped, so that
every stored row is pattern-valid with a registry tactic.  But the Navigator
flat-list importer performs no such validation: the entry
`{techniqueID: "X999", tactic: "Bogus"}` is stored as the row
`(X999, bogus)`, whose id fails the pattern and whose tactic is not in the
registry. -/
theorem C2_counterexample :
    (tryImportNav "t0" [] [⟨some "X999", some "Bogus"⟩]).1 =
      [⟨"X999", "bogus", some "X999", some "", "", "t0"⟩]
    ∧ validTechniqueId "X999" = false
    ∧ isRegistryTactic "bogus" = false := by
  refine ⟨by decide, by decide, by decide⟩

/-- Claim C2, amended:  Only the spreadsheet path validates its candidates, and
only partially: a row whose identifier does not start with `"T"` or whose
tactic token is not one of the 14 registry tactics contributes nothing, so on
a catalog whose rows all have an identifier starting with `"T"` and a registry
tactic, the spreadsheet pass preserves that property.  The bundle importer
requires only an external id starting with `"T"` and stores lower-cased phase
names without a registry check, and the flat-list importer stores any entry
with a non-empty id and tactic (see the counterexample); neither enforces the
`T\d{4}(\.\d{3})?` pattern. -/
theorem C2_amended (now : String) (cat : List TTPRow) (sheets : List Sheet)
    (h : ∀ r ∈ cat, strStartsWith r.technique_id "T" = true
      ∧ isRegistryTactic r.tactic = true) :
    ∀ r ∈ (tryEnrichXlsx now cat sheets).1,
      strStartsWith r.technique_id "T" = true ∧ isRegistryTactic r.tactic = true := by
  intro r hr
  have hr' : r ∈ (xlsxEmissions sheets).foldl (applyEmission now) cat := hr
  rcases memb_pass now (xlsxEmissions sheets) cat r hr' with
    ⟨r0, hr0, hreq⟩ | ⟨E1, e, E2, hsplit, _, _, hreq⟩
  · constructor
    · rw [hreq, foldl_stepRow_technique_id]
      exact (h r0 hr0).1
    · rw [hreq, foldl_stepRow_tactic]
      exact (h r0 hr0).2
  · have he : e ∈ xlsxEmissions sheets := by
      rw [hsplit]
      exact List.mem_append.mpr (Or.inr (List.mem_cons_self e E2))
    have hwf := xlsxEmissions_wf sheets e he
    constructor
    · rw [hreq, foldl_stepRow_technique_id]
      exact hwf.1
    · rw [hreq, foldl_stepRow_tactic]
      exact hwf.2

/-- Claim C2, witness:  The spreadsheet invariant on a concrete one-sheet
workbook applied to the empty catalog, instantiated at the one stored row. -/
theorem C2_witness :
    strStartsWith (TTPRow.mk "T1059" "execution" (some "Cmd") (some "") "" "t0").technique_id
        "T" = true
    ∧ isRegistryTactic (TTPRow.mk "T1059" "execution" (some "Cmd") (some "") "" "t0").tactic
        = true :=
  C2_amended "t0" []
    [⟨[some "ID", some "Name", some "Tactics"],
      [[some "T1059", some "Cmd", some "Execution"]]⟩]
    (fun r hr => absurd hr (List.not_mem_nil r))
    (TTPRow.mk "T1059" "execution" (some "Cmd") (some "") "" "t0")
    (by decide)

/-- A concrete STIX object used to witness the bundle-parser claim: two
`mitre-attack` phase memberships, an id recoverable only from the second
external reference. -/
def stixObjEx : StixObject :=
  ⟨"attack-pattern", some "Phishing", some " d ",
   [⟨"capec", "CAPEC-98"⟩, ⟨"MITRE-ATTACK", "T1566"⟩],
   [⟨"mitre-attack", some "Initial-Access"⟩, ⟨"lockheed", some "x"⟩,
    ⟨"mitre-attack", some "execution"⟩]⟩

/-- Claim C6:  For every bundle technique object: the technique id comes from the
first external reference whose lower-cased source label is `mitre-attack` and
whose external id starts with `"T"`; with no such reference the object yields
no rows; otherwise the object yields exactly one candidate per recognized
(`mitre-attack`) phase membership — zero phases, zero rows; `N` phases, `N`
rows sharing the same id, name, and description, one per lower-cased phase
name. -/
theorem C6_bundle_import (now : String) (obj : StixObject)
    (h : obj.objType = "attack-pattern") :
    (stixTechId obj.external_references = none → stixObjectRows now obj = [])
    ∧ (∀ tid, stixTechId obj.external_references = some tid →
        (stixObjectRows now obj =
          (recognizedPhases obj).map (fun p =>
            ⟨tid, strLower (p.phase_name.getD ""), obj.name,
             some (strTrim (obj.description.getD "")), "", now⟩))
        ∧ (stixObjectRows now obj).length = (recognizedPhases obj).length
        ∧ (recognizedPhases obj = [] → stixObjectRows now obj = []))
    ∧ (∀ (rs1 rs2 : List ExternalRef) (r0 : ExternalRef),
        (∀ ref ∈ rs1, ¬ (strLower ref.source_name = "mitre-attack"
          ∧ strStartsWith ref.external_id "T" = true)) →
        strLower r0.source_name = "mitre-attack" →
        strStartsWith r0.external_id "T" = true →
        stixTechId (rs1 ++ r0 :: rs2) = some r0.external_id) := by
  refine ⟨?_, ?_, ?_⟩
  · intro h0
    unfold stixObjectRows
    rw [if_pos h, h0]
  · intro tid h0
    have hbase : stixObjectRows now obj =
        (recognizedPhases obj).map (fun p =>
          ⟨tid, strLower (p.phase_name.getD ""), obj.name,
           some (strTrim (obj.description.getD "")), "", now⟩) := by
      unfold stixObjectRows
      rw [if_pos h, h0]
    refine ⟨hbase, ?_, ?_⟩
    · rw [hbase, List.length_map]
    · intro hz
      rw [hbase, hz]
      rfl
  · intro rs1
    induction rs1 with
    | nil =>
        intro rs2 r0 _ h1 h2
        unfold stixTechId
        rw [List.nil_append, List.find?_cons_of_pos]
        simp [h1, h2]
    | cons ref rs1 ih =>
        intro rs2 r0 hns h1 h2
        have hrefneg : ¬ (strLower ref.source_name = "mitre-attack"
            ∧ strStartsWith ref.external_id "T" = true) :=
          hns ref (List.mem_cons_self ref rs1)
        have hcond : (strLower ref.source_name == "mitre-attack"
            && strStartsWith ref.external_id "T") = false := by
          cases hb1 : (strLower ref.source_name == "mitre-attack") with
          | false => rfl
          | true =>
              cases hb2 : strStartsWith ref.external_id "T" with
              | false => rfl
              | true => exact absurd ⟨beq_iff_eq.mp hb1, hb2⟩ hrefneg
        unfold stixTechId
        rw [List.cons_append, List.find?_cons_of_neg]
        · exact ih rs2 r0 (fun r hr => hns r (List.mem_cons_of_mem ref hr)) h1 h2
        · rw [hcond]
          exact Bool.false_ne_true

/-- Claim C6, witness:  The concrete object `stixObjEx` (two recognized phases)
yields exactly two rows sharing id, name, and description and differing in
tactic. -/
theorem C6_witness :
    stixObjectRows "t0" stixObjEx =
      [⟨"T1566", "initial-access", some "Phishing", some "d", "", "t0"⟩,
       ⟨"T1566", "execution", some "Phishing", some "d", "", "t0"⟩] := by
  have h := ((C6_bundle_import "t0" stixObjEx rfl).2.1 "T1566" (by decide)).1
  rw [h]
  decide

/-- Claim C7:  A sheet whose fuzzy header match fails to locate an identifier,
name, or tactics column is skipped entirely and contributes zero candidates;
when all three are located the sheet is processed row by row whether or not a
description column exists (the description column only feeds the emitted
description). -/
theorem C7_sheet_skip (s : Sheet) :
    ((findCol (buildHeader s.header) idKeys = none
      ∨ findCol (buildHeader s.header) nameKeys = none
      ∨ findCol (buildHeader s.header) tacKeys = none) →
      sheetEmissions s = [])
    ∧ (∀ ci cn ct, findCol (buildHeader s.header) idKeys = some ci →
        findCol (buildHeader s.header) nameKeys = some cn →
        findCol (buildHeader s.header) tacKeys = some ct →
        sheetEmissions s =
          (s.rows.map (rowEmissions ci cn (findCol (buildHeader s.header) descKeys) ct)).flatten) := by
  constructor
  · intro h
    simp only [sheetEmissions]
    rcases h with h | h | h
    · rw [h]
    · cases hid : findCol (buildHeader s.header) idKeys with
      | none => rfl
      | some ci => rw [h]
    · cases hid : findCol (buildHeader s.header) idKeys with
      | none => rfl
      | some ci =>
          cases hnm : findCol (buildHeader s.header) nameKeys with
          | none => rfl
          | some cn => rw [h]
  · intro ci cn ct h1 h2 h3
    simp only [sheetEmissions]
    rw [h1, h2, h3]

/-- Claim C7, witness:  A concrete sheet with id, name, and tactics columns but
no description column is not skipped: its one data row contributes one
candidate (with empty description). -/
theorem C7_witness :
    sheetEmissions ⟨[some "ID", some "Name", some "Tactics"],
      [[some "T1059", some "Cmd", some "Execution"]]⟩ =
      [⟨"T1059", "execution", "Cmd", ""⟩] := by
  have h := (C7_sheet_skip ⟨[some "ID", some "Name", some "Tactics"],
      [[some "T1059", some "Cmd", some "Execution"]]⟩).2 0 1 2
    (by decide) (by decide) (by decide)
  rw [h]
  decide

theorem flag_formula (b : Bool) (n : Nat) :
    (if n > 0 then true else b) = (decide (0 < n) || b) := by
  by_cases h : n > 0
  · rw [if_pos h]
    rw [decide_eq_true h, Bool.true_or]
  · rw [if_neg h]
    rw [decide_eq_false h, Bool.false_or]

/-- Claim C8:  After an orchestration run the persisted `mitre_loaded` flag
equals `(total change count > 0) || previous flag`: it transitions to true
exactly when the run's total change count is positive, and once true it is
never cleared by a later failed or zero-result run. -/
theorem C8_populated_flag (now : String) (st : RunState)
    (jsons : List JsonSource) (xs : List XlsxSource) :
    (admin_load_mitre now st jsons xs).1.mitre_loaded =
      (decide (0 < (admin_load_mitre now st jsons xs).2) || st.mitre_loaded) :=
  flag_formula st.mitre_loaded
    ((xs.foldl (processXlsx now) (jsons.foldl (processJson now) (st.catalog, 0))).2)

/-- Claim C9:  A candidate source that is missing on disk or fails to parse is
skipped in isolation: the whole orchestration run produces exactly the state
and count of the run without that candidate — the failure contributes 0
changes, never aborts the run, every remaining candidate is still processed,
and records merged from the other sources are unaffected. -/
theorem C9_source_isolation (now : String) (st : RunState)
    (js1 js2 : List JsonSource) (xs1 xs2 : List XlsxSource)
    (badj : JsonSource) (badx : XlsxSource)
    (hj : badj = JsonSource.missing ∨ badj = JsonSource.malformed)
    (hx : badx = XlsxSource.missing ∨ badx = XlsxSource.malformed) :
    admin_load_mitre now st (js1 ++ badj :: js2) (xs1 ++ badx :: xs2) =
      admin_load_mitre now st (js1 ++ js2) (xs1 ++ xs2) := by
  have hbj : ∀ a, processJson now a badj = a := by
    rcases hj with h | h <;> subst h <;> intro a <;> rfl
  have hbx : ∀ a, processXlsx now a badx = a := by
    rcases hx with h | h <;> subst h <;> intro a <;> rfl
  simp only [admin_load_mitre, List.foldl_append, List.foldl_cons, hbj, hbx]

/-- Claim C9, witness:  A malformed JSON candidate and a missing XLSX candidate
leave a concrete run's outcome identical to the run without them. -/
theorem C9_witness :
    admin_load_mitre "t0" ⟨[], false⟩
        [JsonSource.malformed, JsonSource.nav [⟨some "T1059", some "execution"⟩]]
        [XlsxSource.missing] =
      admin_load_mitre "t0" ⟨[], false⟩
        [JsonSource.nav [⟨some "T1059", some "execution"⟩]] [] :=
  C9_source_isolation "t0" ⟨[], false⟩
    [] [JsonSource.nav [⟨some "T1059", some "execution"⟩]] [] []
    JsonSource.malformed XlsxSource.missing (Or.inr rfl) (Or.inl rfl)

theorem seed_empty (now : String) : seed_minimal_ttps now [] = DEFAULT_TTPS now := rfl

theorem seed_nonempty (now : String) {cat : List TTPRow} (h : cat ≠ []) :
    seed_minimal_ttps now cat = cat := by
  unfold seed_minimal_ttps
  rw [if_neg (fun hc => h (List.length_eq_zero.mp hc))]

/-- Claim C10:  The before-request seeding hook: on an empty catalog it inserts
exactly the three hard-coded records `(T1059, execution)`,
`(T1021, lateral-movement)`, `(T1003, credential-access)`; on a non-empty
catalog it does nothing; it never touches the `mitre_loaded` flag; and after it
runs the catalog is never empty — so a served request leaves a non-empty
catalog even while the populated flag still reads false. -/
theorem C10_seed (now : String) (st : RunState) :
    (st.catalog = [] → (before_request_seed now st).catalog = DEFAULT_TTPS now)
    ∧ (st.catalog ≠ [] → (before_request_seed now st).catalog = st.catalog)
    ∧ (before_request_seed now st).mitre_loaded = st.mitre_loaded
    ∧ (before_request_seed now st).catalog ≠ []
    ∧ (DEFAULT_TTPS now).length = 3
    ∧ (DEFAULT_TTPS now).map rowKey =
        [("T1059", "execution"), ("T1021", "lateral-movement"),
         ("T1003", "credential-access")] := by
  refine ⟨?_, ?_, rfl, ?_, rfl, rfl⟩
  · intro h
    show seed_minimal_ttps now st.catalog = DEFAULT_TTPS now
    rw [h]
    exact seed_empty now
  · intro h
    show seed_minimal_ttps now st.catalog = st.catalog
    exact seed_nonempty now h
  · show seed_minimal_ttps now st.catalog ≠ []
    by_cases hc : st.catalog = []
    · rw [hc, seed_empty]
      simp [DEFAULT_TTPS]
    · rw [seed_nonempty now hc]
      exact hc

/-- Claim C10, witness:  Seeding the empty catalog yields the three default
records. -/
theorem C10_witness :
    (before_request_seed "t0" ⟨[], false⟩).catalog = DEFAULT_TTPS "t0" :=
  (C10_seed "t0" ⟨[], false⟩).1 rfl
